import Mathlib

/-!
Verification of the concurrent execution core and the dedup/packing
algorithms of the K12_Record_Gen data-curation toolkit.

The Python source is shallowly embedded:
* dictionaries become association lists with Python dict semantics
  (update-in-place for an existing key, append for a new key);
* the queue-fed worker pools (post_allocated_multiprocess /
  post_allocated_multithread in datatool/utils/parallel.py) become an
  explicit state machine over a FIFO queue, stepped by a schedule that
  says which worker pops next;
* a caller-supplied Python function that may raise, or return None, is
  modelled by the type PyRun below;
* files become byte sequences (length plus byte-at-index function) so
  that multi-mebibyte inputs stay evaluable.
-/

set_option maxRecDepth 8192

namespace Datatool

/-! ### Association lists with Python dict semantics -/

/-- Python dict lookup: first (and, by construction, only) binding of a key. -/
def alookup {κ ν : Type} [DecidableEq κ] : List (κ × ν) → κ → Option ν
  | [], _ => none
  | (k, v) :: rest, key => if k = key then some v else alookup rest key

/-- Python dict assignment: replace the binding in place if the key is
present, otherwise append the new binding at the end (insertion order). -/
def aset {κ ν : Type} [DecidableEq κ] : List (κ × ν) → κ → ν → List (κ × ν)
  | [], key, v => [(key, v)]
  | (k, w) :: rest, key, v =>
    if k = key then (k, v) :: rest else (k, w) :: aset rest key v

/-! ### The queue-fed executor
(post_allocated_multiprocess and post_allocated_multithread in
datatool/utils/parallel.py)

The outcome of calling a caller-supplied Python function on one item:
it either raises an exception, or returns a Python value, where the
value may itself be None (modelled as an Option). -/

inductive PyRun (β : Type) where
  | raises : PyRun β
  | returns : Option β → PyRun β
deriving DecidableEq

/-- The value a worker would push for a finished call, with the thread
variant substituting None for a raised exception. -/
def PyRun.pushVal {β : Type} : PyRun β → Option β
  | .raises => none
  | .returns v => v

/-- The queue_filler of both queue-fed variants: all items, then one
termination marker (None) per worker. -/
def queue_filler {α : Type} (items : List α) (workers : Nat) : List (Option α) :=
  items.map some ++ List.replicate workers none

/-- Shared state of a queue-fed pool run: the FIFO data queue (front
first), one liveness flag per worker, and the result queue in push
order. -/
structure QState (α β : Type) where
  queue : List (Option α)
  alive : List Bool
  results : List (Option β)
deriving DecidableEq

/-- Initial pool state: the data queue as filled by queue_filler, all
workers alive, result queue empty. -/
def initQState {α β : Type} (items : List α) (workers : Nat) : QState α β :=
  ⟨queue_filler items workers, List.replicate workers true, []⟩

/-- One scheduling step: worker w pops the front of the data queue.
A termination marker stops the worker.  On an item, the worker calls fn:
the thread variant (dieOnRaise = false) pushes the result, substituting
None when fn raises, and keeps running; the process variant
(dieOnRaise = true) pushes the returned value, but breaks out of its
loop, pushing nothing, when fn raises.  A dead worker, or an empty
queue, leaves the state unchanged.  (The process worker's 1-second
get-timeout, which can also kill it, is a timing effect outside this
model: the model assumes a worker only blocks when the queue is
empty.) -/
def qstep {α β : Type} (dieOnRaise : Bool) (fn : α → PyRun β)
    (st : QState α β) (w : Nat) : QState α β :=
  if st.alive.getD w false then
    match st.queue with
    | [] => st
    | none :: rest => ⟨rest, st.alive.set w false, st.results⟩
    | some x :: rest =>
      match fn x with
      | PyRun.raises =>
        if dieOnRaise then ⟨rest, st.alive.set w false, st.results⟩
        else ⟨rest, st.alive, st.results ++ [none]⟩
      | PyRun.returns v => ⟨rest, st.alive, st.results ++ [v]⟩
  else st

/-- Run the pool under a schedule (the sequence of workers taking the
queue lock). -/
def qrun {α β : Type} (dieOnRaise : Bool) (fn : α → PyRun β)
    (s : List Nat) (st : QState α β) : QState α β :=
  s.foldl (qstep dieOnRaise fn) st

/-- The values pushed while consuming a given queue segment: markers push
nothing; an item pushes its pushVal in the thread variant, while in the
process variant a raising item pushes nothing (the worker dies). -/
def pushesOf {α β : Type} (dieOnRaise : Bool) (fn : α → PyRun β)
    (q : List (Option α)) : List (Option β) :=
  q.filterMap (fun e =>
    match e with
    | none => none
    | some x =>
      match fn x with
      | PyRun.raises => if dieOnRaise then none else some none
      | PyRun.returns v => some v)

/-- The thread variant's result collection: it pops exactly len(items)
values from the result queue and keeps only the non-None ones
(`if result is not None: all_results.append(result)`).  The process
variant keeps every popped value, None included. -/
def post_allocated_multithread_collect {β : Type} (results : List (Option β)) : List β :=
  results.filterMap id

/-! ### The static-partition executor
(split_data_for_workers and pre_allocated_multiprocess in
datatool/utils/parallel.py) -/

/-- split_data_for_workers: item i is appended to bucket (i mod
num_workers). -/
def split_data_for_workers {α : Type} (data_list : List α) (num_workers : Nat) :
    List (List α) :=
  data_list.enum.foldl
    (fun buckets p =>
      buckets.set (p.1 % num_workers) (buckets.getD (p.1 % num_workers) [] ++ [p.2]))
    (List.replicate num_workers [])

/-- The sub-list the round-robin split assigns to worker w: the items
whose index is congruent to w modulo num_workers, in order. -/
def roundRobinBucket {α : Type} (data_list : List α) (num_workers w : Nat) : List α :=
  (data_list.enum.filter (fun p => p.1 % num_workers == w)).map Prod.snd

/-- pre_allocated_multiprocess: each worker w runs the caller's function
on its whole bucket and puts the returned sub-list on a shared result
queue; after joining, the caller drains the queue and extends, so the
returned list is the concatenation of the sub-lists in the order the
workers completed (the order of the puts), given here as the
completion-order list of worker indices. -/
def pre_allocated_multiprocess {α β : Type} (fn : Nat → List α → List β)
    (all_data : List α) (num_workers : Nat) (completion_order : List Nat) : List β :=
  (completion_order.map
    (fun w => fn w ((split_data_for_workers all_data num_workers).getD w []))).flatten

/-! ### The dynamic dependent-task scheduler and the caller-side turn
reduction (dynamic_task_pool_multiprocess in datatool/utils/parallel.py,
and the highest-turn reduction in datatool/utils/data.py) -/

/-- A dynamic task: the wire fields the scheduler reads. -/
structure DTask where
  task_id : String
  item_id : String
  turn : Nat
deriving DecidableEq

/-- A TaskResult record as pushed on the result queue by the dynamic
pool's worker. -/
structure TRec where
  task_id : String
  item_id : String
  turn : Nat
  result : Option String
deriving DecidableEq

/-- What the caller's transform returns for one dynamic task: the
(possibly null) result and the child tasks to enqueue. -/
structure DynOut where
  result : Option String
  next_tasks : List DTask
deriving DecidableEq

/-- Sequential semantics of dynamic_task_pool_multiprocess: pop the
front task; if fn returns a truthy record, push one TaskResult and
enqueue its next_tasks at the back of the FIFO queue; if fn raises or
returns a falsy value (modelled as none), push nothing.  Fuel bounds
the recursion since callers may spawn tasks forever. -/
def dynRun (fn : DTask → Option DynOut) : Nat → List DTask → List TRec
  | 0, _ => []
  | _, [] => []
  | fuel + 1, t :: rest =>
    match fn t with
    | none => dynRun fn fuel rest
    | some out =>
      ⟨t.task_id, t.item_id, t.turn, out.result⟩ :: dynRun fn fuel (rest ++ out.next_tasks)

/-- One step of the caller-side reduction in datatool/utils/data.py:
`if item_id not in item_results or turn > item_results[item_id]['turn']:
item_results[item_id] = result`. -/
def reduceStep (m : List (String × TRec)) (r : TRec) : List (String × TRec) :=
  match alookup m r.item_id with
  | none => aset m r.item_id r
  | some prev => if prev.turn < r.turn then aset m r.item_id r else m

/-- The caller-side reduction over the flat TaskResult stream: keep,
per item_id, the first result carrying the maximal turn. -/
def process_turn_reduce (results : List TRec) : List (String × TRec) :=
  results.foldl reduceStep []

/-! ### The content hasher
(get_file_hash_fast in datatool/scripts/zip_dataset.py and
datatool/scripts/data_aggregation/merge_dataset.py) -/

/-- A file's content: its byte count and the byte at each index. -/
structure ByteSeq where
  size : Nat
  byteAt : Nat → Nat

/-- Python f.seek(off); f.read(k): the bytes in [off, min(size, off+k)). -/
def ByteSeq.read (f : ByteSeq) (off k : Nat) : ByteSeq :=
  ⟨min k (f.size - off), fun i => f.byteAt (off + i)⟩

/-- Python f.seek(off); f.read(): the bytes from off to the end. -/
def ByteSeq.readAll (f : ByteSeq) (off : Nat) : ByteSeq :=
  ⟨f.size - off, fun i => f.byteAt (off + i)⟩

/-- Concatenation of byte sequences, as successive hash.update calls. -/
def ByteSeq.app (a b : ByteSeq) : ByteSeq :=
  ⟨a.size + b.size, fun i => if i < a.size then a.byteAt i else b.byteAt (i - a.size)⟩

/-- The empty byte sequence. -/
def ByteSeq.empty : ByteSeq := ⟨0, fun _ => 0⟩

/-- Extensional equality of byte sequences: same length, same bytes. -/
def ByteSeq.Eqv (a b : ByteSeq) : Prop :=
  a.size = b.size ∧ ∀ i, i < a.size → a.byteAt i = b.byteAt i

/-- The bytes of an ASCII string (used for the decimal size salt). -/
def strBytes (s : String) : ByteSeq :=
  ⟨s.length, fun i => (s.toList.getD i ' ').toNat⟩

/-- One mebibyte. -/
def mib : Nat := 1024 * 1024

/-- The bytes fed to the digest on the large-file path of
get_file_hash_fast: the first 1 MiB, then (if size > 2 MiB) the 1 MiB
read from offset size // 2, then (if size > 1 MiB) everything from
offset max(0, size - 1 MiB), then the decimal string of the size. -/
def digestInputFast (f : ByteSeq) : ByteSeq :=
  (f.read 0 mib).app
    (((if 2 * mib < f.size then f.read (f.size / 2) mib else ByteSeq.empty)).app
      (((if mib < f.size then f.readAll (f.size - mib) else ByteSeq.empty)).app
        (strBytes (toString f.size))))

/-- Modelled from the spec: the digest input claim C5 describes, whose
middle chunk is "the 1 MiB centered at the file midpoint", i.e. the
1 MiB starting 512 KiB before offset size // 2.  Used only to compare
the claim's wording against digestInputFast, which follows the code. -/
def digestInputCentered (f : ByteSeq) : ByteSeq :=
  (f.read 0 mib).app
    (((if 2 * mib < f.size then f.read (f.size / 2 - mib / 2) mib else ByteSeq.empty)).app
      (((if mib < f.size then f.readAll (f.size - mib) else ByteSeq.empty)).app
        (strBytes (toString f.size))))

/-- get_file_hash_fast, over an abstract hex digest md5hex: empty file
→ "empty_file"; under 10 MiB → full-content digest; otherwise the
sampled digest input, prefixed "fast_".  (The Python except-branch that
returns None on I/O failure is modelled at the call sites by an oracle
that may return no hash.) -/
def get_file_hash_fast (md5hex : ByteSeq → String) (f : ByteSeq) : String :=
  if f.size = 0 then "empty_file"
  else if f.size < 10 * mib then md5hex f
  else "fast_" ++ md5hex (digestInputFast f)

/-! ### The deduplicator
(deduplicate_media_files_byhash and process_hash_group_concurrent_zip
in datatool/scripts/zip_dataset.py) -/

/-- One discovered media-file reference. -/
structure MediaFile where
  src_path : String
  media_type : String
  suffix : String
  size : Nat
  dataset_name : String
deriving DecidableEq

/-- The canonical representative stored in unique_files. -/
structure UniqueEntry where
  media_type : String
  src_path : String
  idx : Nat
  suffix : String
  size : Nat
  original_dataset : String
deriving DecidableEq

/-- One record returned by compute_hash_for_file_zip_thread /
compute_hash_for_file_zip_process: a status string, the (possibly
absent) hash, and the media file it belongs to. -/
structure HashResult where
  status : String
  file_hash : Option String
  media_file : MediaFile
deriving DecidableEq

/-- The shared dedup output state: per-(dataset, media_type) counters,
the unique_files dict and the path_mapping dict. -/
structure DedupCore where
  media_counters : List ((String × String) × Nat)
  unique_files : List (String × UniqueEntry)
  path_mapping : List (String × String)
deriving DecidableEq

/-- State while processing one same-size hash group: the shared core
plus the group-local group_hash_map. -/
structure HashGroupState where
  core : DedupCore
  group_hash_map : List (String × UniqueEntry)
deriving DecidableEq

/-- The destination name "MediaFiles/{media_type}/{idx}{suffix}". -/
def relPathOf (media_type : String) (idx : Nat) (suffix : String) : String :=
  "MediaFiles/" ++ media_type ++ "/" ++ toString idx ++ suffix

/-- Processing one hash result inside process_hash_group_concurrent_zip:
results whose status is not "success" or whose file_hash is falsy (None
or empty) are skipped entirely; a new hash claims the next
per-(dataset, media_type) index and a fresh destination; a repeated
hash maps its path to the existing entry's destination. -/
def process_hash_result (st : HashGroupState) (r : HashResult) : HashGroupState :=
  match r.file_hash with
  | none => st
  | some h =>
    if r.status ≠ "success" ∨ h = "" then st
    else
      match alookup st.group_hash_map h with
      | none =>
        let mf := r.media_file
        let key := (mf.dataset_name, mf.media_type)
        let idx := (alookup st.core.media_counters key).getD 0 + 1
        let entry : UniqueEntry :=
          ⟨mf.media_type, mf.src_path, idx, mf.suffix, mf.size, mf.dataset_name⟩
        ⟨⟨aset st.core.media_counters key idx,
          aset st.core.unique_files h entry,
          aset st.core.path_mapping mf.src_path (relPathOf mf.media_type idx mf.suffix)⟩,
          aset st.group_hash_map h entry⟩
      | some e =>
        ⟨⟨st.core.media_counters, st.core.unique_files,
          aset st.core.path_mapping r.media_file.src_path
            (relPathOf e.media_type e.idx e.suffix)⟩,
          st.group_hash_map⟩

/-- process_hash_group_concurrent_zip: fold the hash results of one
same-size group into the shared state, with a fresh group_hash_map.
(The concurrent hashing pool returns one result per task; completion
order is abstracted as list order.) -/
def process_hash_group_concurrent_zip (core : DedupCore) (results : List HashResult) :
    DedupCore :=
  (results.foldl process_hash_result ⟨core, []⟩).core

/-- Phase 1 of deduplicate_media_files_byhash: skip already-seen paths,
stat the file (a stat failure skips it), and append it to its exact-size
group, groups kept in first-seen order. -/
def sizeGroupStep (stat : String → Option Nat)
    (st : List String × List (Nat × List MediaFile)) (mf : MediaFile) :
    List String × List (Nat × List MediaFile) :=
  if mf.src_path ∈ st.1 then st
  else
    match stat mf.src_path with
    | none => (mf.src_path :: st.1, st.2)
    | some sz =>
      (mf.src_path :: st.1, aset st.2 sz ((alookup st.2 sz).getD [] ++ [mf]))

/-- Phase 2 of deduplicate_media_files_byhash, for one size group: a
singleton group is unique without hashing and keyed
"size_{size}_{src_path}"; a larger group is hashed (each existing file
yielding one status-"success" result whose hash comes from the hash
oracle, None on I/O failure) and folded through
process_hash_group_concurrent_zip. -/
def dedupGroupStep (fileExists : String → Bool) (hashOf : String → Option String)
    (core : DedupCore) (g : Nat × List MediaFile) : DedupCore :=
  match g.2 with
  | [mf] =>
    let key := (mf.dataset_name, mf.media_type)
    let idx := (alookup core.media_counters key).getD 0 + 1
    let size_hash := "size_" ++ toString g.1 ++ "_" ++ mf.src_path
    let entry : UniqueEntry :=
      ⟨mf.media_type, mf.src_path, idx, mf.suffix, mf.size, mf.dataset_name⟩
    ⟨aset core.media_counters key idx,
      aset core.unique_files size_hash entry,
      aset core.path_mapping mf.src_path (relPathOf mf.media_type idx mf.suffix)⟩
  | group =>
    let tasks := group.filter (fun mf => fileExists mf.src_path)
    let results := tasks.map
      (fun mf => ({ status := "success", file_hash := hashOf mf.src_path,
                    media_file := mf } : HashResult))
    process_hash_group_concurrent_zip core results

/-- deduplicate_media_files_byhash: group the media files by exact byte
size, then process the groups in first-seen order starting from empty
counters and dicts. -/
def deduplicate_media_files_byhash (stat : String → Option Nat)
    (fileExists : String → Bool) (hashOf : String → Option String)
    (all_media_files : List MediaFile) : DedupCore :=
  let size_groups := (all_media_files.foldl (sizeGroupStep stat) ([], [])).2
  size_groups.foldl (dedupGroupStep fileExists hashOf) ⟨[], [], []⟩

/-! ### The volume packer
(allocate_files_to_volumes in datatool/scripts/zip_dataset.py) -/

/-- One unique file to be packed, as in unique_file_paths. -/
structure ZEntry where
  src_path : String
  size : Nat
deriving DecidableEq

/-- One output volume: its files, its copy of the JSONL payload, its
config (first volume only), and its size accumulator, which starts at
the base overhead of the shared payload. -/
structure Volume where
  files : List ZEntry
  jsonl : List (String × String)
  config : Option String
  size : Nat
deriving DecidableEq

/-- The base overhead counted into every volume: the UTF-8 byte size of
every JSONL payload plus that of the config, when present.  (The code
adds the config's size into base_overhead once and reuses it for every
volume, even though only the first volume actually receives the
config.) -/
def base_overhead (jsonl_data : List (String × String)) (config : Option String) : Nat :=
  (jsonl_data.map (fun p => p.2.utf8ByteSize)).sum +
    (match config with | none => 0 | some c => c.utf8ByteSize)

/-- Stable descending sort by size, modelling Python
sorted(key=lambda x: x["size"], reverse=True). -/
def insertDescBySize (e : ZEntry) : List ZEntry → List ZEntry
  | [] => [e]
  | x :: xs => if e.size < x.size then x :: insertDescBySize e xs else e :: x :: xs

/-- Stable descending sort by size (insertion sort; the unique stable
descending order, matching Python's stable sorted with reverse=True). -/
def sortDescBySize : List ZEntry → List ZEntry
  | [] => []
  | x :: xs => insertDescBySize x (sortDescBySize xs)

/-- One step of the packing loop: if the running volume is non-empty and
the entry would push its size over the cap, seal it and start a fresh
volume (JSONL copied, config None, size = base overhead); then absorb
the entry. -/
def allocStep (jsonl_data : List (String × String)) (base cap : Nat)
    (st : List Volume × Volume) (e : ZEntry) : List Volume × Volume :=
  if cap < st.2.size + e.size ∧ st.2.files ≠ [] then
    (st.1 ++ [st.2], ⟨[e], jsonl_data, none, base + e.size⟩)
  else
    (st.1, ⟨st.2.files ++ [e], st.2.jsonl, st.2.config, st.2.size + e.size⟩)

/-- allocate_files_to_volumes: sort the entries by descending size,
fold them through the packing loop starting from a first volume that
carries the config, and append the final volume if it is non-empty. -/
def allocate_files_to_volumes (unique_file_paths : List ZEntry)
    (jsonl_data : List (String × String)) (config_content : Option String)
    (max_zip_size : Nat) : List Volume :=
  let base := base_overhead jsonl_data config_content
  let sorted_files := sortDescBySize unique_file_paths
  let st := sorted_files.foldl (allocStep jsonl_data base max_zip_size)
    ([], ⟨[], jsonl_data, config_content, base⟩)
  if st.2.files ≠ [] then st.1 ++ [st.2] else st.1

/-! ## Lemmas about the embedding -/

theorem alookup_aset_self {κ ν : Type} [DecidableEq κ]
    (m : List (κ × ν)) (k : κ) (v : ν) : alookup (aset m k v) k = some v := by
  induction m with
  | nil => simp [aset, alookup]
  | cons p rest ih =>
    obtain ⟨k', w⟩ := p
    by_cases h : k' = k
    · subst h; simp [aset, alookup]
    · simp [aset, alookup, h, ih]

theorem alookup_aset_other {κ ν : Type} [DecidableEq κ]
    (m : List (κ × ν)) (k k' : κ) (v : ν) (hne : k ≠ k') :
    alookup (aset m k v) k' = alookup m k' := by
  induction m with
  | nil => simp [aset, alookup, hne]
  | cons p rest ih =>
    obtain ⟨k₀, w⟩ := p
    by_cases h : k₀ = k
    · subst h
      simp [aset, alookup, hne]
    · simp [aset, alookup, h, ih]

theorem qrun_nil {α β : Type} (d : Bool) (fn : α → PyRun β) (st : QState α β) :
    qrun d fn [] st = st := rfl

theorem qrun_cons {α β : Type} (d : Bool) (fn : α → PyRun β)
    (w : Nat) (ws : List Nat) (st : QState α β) :
    qrun d fn (w :: ws) st = qrun d fn ws (qstep d fn st w) := rfl

theorem pushesOf_append {α β : Type} (d : Bool) (fn : α → PyRun β)
    (q₁ q₂ : List (Option α)) :
    pushesOf d fn (q₁ ++ q₂) = pushesOf d fn q₁ ++ pushesOf d fn q₂ := by
  simp [pushesOf]

/-- Any single step either does nothing or pops the queue front, pushing
exactly the values described by pushesOf. -/
theorem qstep_cases {α β : Type} (d : Bool) (fn : α → PyRun β)
    (st : QState α β) (w : Nat) :
    qstep d fn st w = st ∨
    (st.queue ≠ [] ∧
      (qstep d fn st w).queue = st.queue.tail ∧
      (qstep d fn st w).results = st.results ++ pushesOf d fn (st.queue.take 1)) := by
  unfold qstep
  by_cases halive : st.alive.getD w false
  · rw [if_pos halive]
    match hq : st.queue with
    | [] => exact Or.inl rfl
    | none :: rest =>
      refine Or.inr ⟨by simp, ?_, ?_⟩ <;> simp [pushesOf]
    | some x :: rest =>
      match hfx : fn x with
      | PyRun.raises =>
        cases d with
        | false =>
          refine Or.inr ⟨by simp, ?_, ?_⟩ <;> simp [pushesOf, hfx]
        | true =>
          refine Or.inr ⟨by simp, ?_, ?_⟩ <;> simp [pushesOf, hfx]
      | PyRun.returns v =>
        refine Or.inr ⟨by simp, ?_, ?_⟩ <;> simp [pushesOf, hfx]
  · rw [if_neg halive]
    exact Or.inl rfl

/-- Queue conservation: a run consumes a prefix of the queue and pushes
exactly the values of that prefix, in queue order. -/
theorem qrun_consumes_prefix {α β : Type} (d : Bool) (fn : α → PyRun β)
    (s : List Nat) (st : QState α β) :
    ∃ k, k ≤ st.queue.length ∧
      (qrun d fn s st).queue = st.queue.drop k ∧
      (qrun d fn s st).results = st.results ++ pushesOf d fn (st.queue.take k) := by
  induction s generalizing st with
  | nil =>
    exact ⟨0, Nat.zero_le _, by simp [qrun], by simp [qrun, pushesOf]⟩
  | cons w ws ih =>
    rcases qstep_cases d fn st w with heq | ⟨hne, hq, hr⟩
    · obtain ⟨k, hk, hq, hr⟩ := ih st
      exact ⟨k, hk, by rwa [qrun_cons, heq], by rwa [qrun_cons, heq]⟩
    · obtain ⟨k, hk, hq', hr'⟩ := ih (qstep d fn st w)
      match hqueue : st.queue with
      | [] => exact absurd hqueue hne
      | e :: rest =>
        refine ⟨k + 1, ?_, ?_, ?_⟩
        · simpa [hqueue] using Nat.succ_le_succ (by simpa [hqueue, hq] using hk)
        · rw [qrun_cons, hq']
          simp [hq, hqueue]
        · rw [qrun_cons, hr', hr, hq, hqueue]
          simp only [List.tail_cons, List.append_assoc]
          congr 1
          have h1 : (e :: rest).take 1 = [e] := by simp
          have h2 : (e :: rest).take (k + 1) = e :: rest.take k := by simp
          rw [h1, h2, show (e :: rest.take k) = [e] ++ rest.take k from rfl,
            pushesOf_append]

theorem pushesOf_replicate_none {α β : Type} (d : Bool) (fn : α → PyRun β) (j : Nat) :
    pushesOf d fn (List.replicate j (none : Option α)) = [] := by
  induction j with
  | zero => rfl
  | succ n ih => simp [pushesOf, List.replicate_succ, List.filterMap_cons] at ih ⊢

theorem pushesOf_map_some {α β : Type} (d : Bool) (fn : α → PyRun β) (l : List α)
    (hnr : ∀ x ∈ l, fn x = PyRun.raises → d = false) :
    pushesOf d fn (l.map some) = l.map (fun x => (fn x).pushVal) := by
  induction l with
  | nil => rfl
  | cons x xs ih =>
    have hx : fn x = PyRun.raises → d = false := hnr x (by simp)
    have ihx := ih (fun y hy => hnr y (by simp [hy]))
    match hfx : fn x with
    | PyRun.raises =>
      have hd : d = false := hx hfx
      subst hd
      simpa [pushesOf, List.filterMap_cons, hfx, PyRun.pushVal] using ihx
    | PyRun.returns v =>
      simpa [pushesOf, List.filterMap_cons, hfx, PyRun.pushVal] using ihx

/-- Any run of either variant that delivers the len(items) results the
collector demands delivered exactly the per-item pushed values, in queue
order (for the process variant, under the assumption that no call
raises). -/
theorem qrun_complete {α β : Type} (d : Bool) (fn : α → PyRun β)
    (items : List α) (workers : Nat) (s : List Nat)
    (hnr : ∀ x ∈ items, fn x = PyRun.raises → d = false)
    (h : (qrun d fn s (initQState items workers)).results.length = items.length) :
    (qrun d fn s (initQState items workers)).results
      = items.map (fun x => (fn x).pushVal) := by
  obtain ⟨k, hk, hq, hr⟩ := qrun_consumes_prefix d fn s (initQState items workers)
  have hinit : (initQState items workers : QState α β).queue
      = items.map some ++ List.replicate workers none := rfl
  have htake : (initQState items workers : QState α β).queue.take k
      = (items.take k).map some ++ (List.replicate workers (none : Option α)).take (k - items.length) := by
    rw [hinit, List.take_append_eq_append_take]
    simp [List.map_take]
  have hres : (qrun d fn s (initQState items workers)).results
      = (items.take k).map (fun x => (fn x).pushVal) := by
    rw [hr, htake, pushesOf_append,
      pushesOf_map_some d fn (items.take k)
        (fun x hx => hnr x (List.mem_of_mem_take hx)),
      List.take_replicate, pushesOf_replicate_none]
    simp [initQState]
  have hlen : (items.take k).length = items.length := by
    have := h
    rw [hres] at this
    simpa using this
  have hkk : items.length ≤ k := by
    by_contra hlt
    push_neg at hlt
    rw [List.length_take] at hlen
    omega
  rw [hres, List.take_of_length_le hkk]

/-- Sequentially scheduling worker 0 once per leading item consumes
exactly those items and appends their pushed values, leaving the worker
alive (for the process variant, provided none of them raises). -/
theorem qrun_worker0 {α β : Type} (d : Bool) (fn : α → PyRun β)
    (items : List α) (hnr : ∀ x ∈ items, fn x = PyRun.raises → d = false)
    (rest : List (Option α)) (alive : List Bool) (res : List (Option β))
    (halive : alive.getD 0 false = true) :
    qrun d fn (List.replicate items.length 0) ⟨items.map some ++ rest, alive, res⟩
      = ⟨rest, alive, res ++ items.map (fun x => (fn x).pushVal)⟩ := by
  induction items generalizing res with
  | nil => simp [qrun]
  | cons x xs ih =>
    have hx : fn x = PyRun.raises → d = false := hnr x (by simp)
    have halive2 : alive[0]?.getD false = true := by
      rw [← List.getD_eq_getElem?_getD]; exact halive
    have step : qstep d fn ⟨(x :: xs).map some ++ rest, alive, res⟩ 0
        = ⟨xs.map some ++ rest, alive, res ++ [(fn x).pushVal]⟩ := by
      match hfx : fn x with
      | PyRun.raises =>
        have hd : d = false := hx hfx
        subst hd
        simp [qstep, halive2, hfx, PyRun.pushVal]
      | PyRun.returns v =>
        simp [qstep, halive2, hfx, PyRun.pushVal]
    have ihx := ih (fun y hy => hnr y (by simp [hy])) (res ++ [(fn x).pushVal])
    rw [List.length_cons, List.replicate_succ, qrun_cons, step, ihx]
    simp

/-- The initial alive flag of worker 0 when there is at least one
worker. -/
theorem initQState_alive0 {α β : Type} (items : List α) (workers : Nat)
    (hw : 1 ≤ workers) :
    (initQState items workers : QState α β).alive.getD 0 false = true := by
  match workers, hw with
  | n + 1, _ => simp [initQState, List.replicate_succ]

/-! ## Inputs used by witnesses and counterexamples -/

/-- A transform that never raises and always returns the Python value
None. -/
def cexConstNone : Nat → PyRun Nat := fun _ => PyRun.returns none

/-- A transform raising on item 0 and returning its argument
otherwise. -/
def cexRaisesOnZero : Nat → PyRun Nat := fun n =>
  if n = 0 then PyRun.raises else PyRun.returns (some n)

/-- The two-turn transform of the claim C4 scenario: turn 0 answers
"partial" and spawns the turn-1 task; turn 1 answers "final" with no
children. -/
def scenarioTurnFn : DTask → Option DynOut := fun t =>
  if t.turn = 0 then some ⟨some "partial", [⟨"t1", t.item_id, 1⟩]⟩
  else some ⟨some "final", []⟩

/-- stat oracle for the C10 scenario: two existing files of different
sizes. -/
def statC10 : String → Option Nat := fun s =>
  if s = "/a/1.jpg" then some 100 else if s = "/b/1.jpg" then some 200 else none

/-- A unique file of dataset A. -/
def mfA : MediaFile := ⟨"/a/1.jpg", "images", ".jpg", 100, "A"⟩

/-- A unique file of dataset B with the same media type and suffix. -/
def mfB : MediaFile := ⟨"/b/1.jpg", "images", ".jpg", 200, "B"⟩

/-- The dedup output on the two-dataset scenario of claim C10. -/
def dedupC10 : DedupCore :=
  deduplicate_media_files_byhash statC10 (fun _ => true) (fun _ => none) [mfA, mfB]

/-- A 10 MiB file whose byte at index i is i mod 251. -/
def fileC5 : ByteSeq := ⟨10 * mib, fun i => i % 251⟩

/-! ## Claims -/

/-- C1 (amended).  For both queue-fed variants the shared queue is
populated with all items followed by one termination marker per worker.
Scheduling worker 0 once per item consumes every item and pushes exactly
one value per item — for the process variant provided no call raises —
so a finite schedule delivers the len(items) results the collector
demands and the run terminates (absent the process worker's get-timeout,
which is outside the model).  Conversely, any schedule after which the
collector has its len(items) results delivered exactly the per-item
values: the thread variant's returned list keeps exactly one result per
item whose call returned a non-None value (a raising call and a
None-returning call both contribute nothing, being filtered), and the
process variant, when no call raises, returns exactly one possibly-None
result per item. -/
theorem C1_queue_fed_executor {α β : Type} (fn : α → PyRun β)
    (items : List α) (workers : Nat) (hw : 1 ≤ workers) :
    (initQState items workers : QState α β).queue
        = items.map some ++ List.replicate workers none
    ∧ (∀ d, (∀ x ∈ items, fn x = PyRun.raises → d = false) →
        (qrun d fn (List.replicate items.length 0) (initQState items workers)).results
          = items.map (fun x => (fn x).pushVal))
    ∧ (∀ s, (qrun false fn s (initQState items workers)).results.length = items.length →
        post_allocated_multithread_collect
            (qrun false fn s (initQState items workers)).results
          = items.filterMap (fun x => (fn x).pushVal))
    ∧ (∀ s, (∀ x ∈ items, fn x ≠ PyRun.raises) →
        (qrun true fn s (initQState items workers)).results.length = items.length →
        (qrun true fn s (initQState items workers)).results
          = items.map (fun x => (fn x).pushVal)) := by
  refine ⟨rfl, ?_, ?_, ?_⟩
  · intro d hnr
    have h0 := qrun_worker0 d fn items hnr (List.replicate workers none)
      (List.replicate workers true) [] (by
        match workers, hw with
        | n + 1, _ => simp [List.replicate_succ])
    simpa [initQState, queue_filler] using congrArg QState.results h0
  · intro s hs
    rw [post_allocated_multithread_collect,
      qrun_complete false fn items workers s (fun _ _ _ => rfl) hs]
    induction items with
    | nil => rfl
    | cons x xs ih => simp [List.filterMap_cons, ih]
  · intro s hnr hs
    exact qrun_complete true fn items workers s
      (fun x hx hraise => absurd hraise (hnr x hx)) hs

/-- C1 counterexample, refuting the claim as stated.  Thread variant:
one item whose call returns None without raising; after a completing
schedule the collector's filter leaves an empty result list — zero, not
exactly one, results for a non-raising item.  Process variant: two
items, the first raising; the worker dies, the queue still holds the
second (non-raising) item after any further scheduling of the only
worker, no result is ever pushed, and the collector demanding two
results never terminates. -/
theorem C1_counterexample :
    (post_allocated_multithread_collect
        (qrun false cexConstNone [0, 0] (initQState [1] 1)).results = []
      ∧ cexConstNone 1 ≠ PyRun.raises)
    ∧ ((qrun true cexRaisesOnZero [0, 0, 0, 0] (initQState [0, 1] 1)).results = []
      ∧ (qrun true cexRaisesOnZero [0, 0, 0, 0] (initQState [0, 1] 1)).queue
          = [some 1, none]
      ∧ cexRaisesOnZero 1 ≠ PyRun.raises) := by
  exact ⟨⟨by decide, by decide⟩, by decide, by decide, by decide⟩

/-- Witness for C1 at a concrete input. -/
theorem C1_witness :
    (initQState [5] 1 : QState Nat Nat).queue = [5].map some ++ List.replicate 1 none
    ∧ post_allocated_multithread_collect
        (qrun false cexRaisesOnZero [0, 0] (initQState [5] 1)).results
      = [5].filterMap (fun x => (cexRaisesOnZero x).pushVal) := by
  have h := C1_queue_fed_executor cexRaisesOnZero [5] 1 (by decide)
  exact ⟨h.1, h.2.2.1 [0, 0] (by decide)⟩

/-- C2 (amended).  On an item whose call raises, the thread variant's
worker logs, pushes the None sentinel and stays alive — it keeps popping
subsequent items; the process variant's worker logs and then breaks out
of its loop: it is marked dead and pushes nothing, processing no further
items. -/
theorem C2_worker_exception {α β : Type} (fn : α → PyRun β) (st : QState α β)
    (w : Nat) (x : α) (rest : List (Option α))
    (halive : st.alive.getD w false = true)
    (hq : st.queue = some x :: rest) (hx : fn x = PyRun.raises) :
    qstep false fn st w = ⟨rest, st.alive, st.results ++ [none]⟩
    ∧ qstep true fn st w = ⟨rest, st.alive.set w false, st.results⟩ := by
  have halive2 : st.alive[w]?.getD false = true := by
    rw [← List.getD_eq_getElem?_getD]; exact halive
  constructor <;> simp [qstep, halive2, hq, hx]

/-- C2 counterexample, refuting the claim as stated for the process
variant: with one worker and a transform raising on the first of two
items, after the raise the worker is dead, the second item — whose call
would return normally — is never popped, and no result is produced. -/
theorem C2_counterexample :
    (qrun true cexRaisesOnZero [0, 0, 0] (initQState [0, 1] 1)).alive = [false]
    ∧ (qrun true cexRaisesOnZero [0, 0, 0] (initQState [0, 1] 1)).queue
        = [some 1, none]
    ∧ (qrun true cexRaisesOnZero [0, 0, 0] (initQState [0, 1] 1)).results = []
    ∧ cexRaisesOnZero 1 = PyRun.returns (some 1) := by
  exact ⟨by decide, by decide, by decide, by decide⟩

/-- Witness for C2 at a concrete state. -/
theorem C2_witness :
    qstep false cexRaisesOnZero ⟨[some 0, some 1, none], [true], []⟩ 0
      = ⟨[some 1, none], [true], [] ++ [none]⟩
    ∧ qstep true cexRaisesOnZero ⟨[some 0, some 1, none], [true], []⟩ 0
      = ⟨[some 1, none], [true].set 0 false, []⟩ :=
  C2_worker_exception cexRaisesOnZero ⟨[some 0, some 1, none], [true], []⟩ 0 0
    [some 1, none] (by decide) rfl (by decide)

/-- C9 (confirmed).  In the thread variant a raising call and a call
legitimately returning None push the same None sentinel; any run
delivering the len(items) values the caller pops produces exactly the
per-item pushed values, and the None filter then removes every None, so
neither kind of item leaves an entry in the returned list, and two
transforms that agree after the None substitution produce identical
returned lists. -/
theorem C9_thread_none_indistinguishable {α β : Type} (fn g : α → PyRun β)
    (items : List α) (workers : Nat) (s : List Nat) :
    (PyRun.raises : PyRun β).pushVal = (PyRun.returns none : PyRun β).pushVal
    ∧ ((qrun false fn s (initQState items workers)).results.length = items.length →
        (qrun false fn s (initQState items workers)).results
            = items.map (fun x => (fn x).pushVal)
        ∧ post_allocated_multithread_collect
              (qrun false fn s (initQState items workers)).results
            = items.filterMap (fun x => (fn x).pushVal))
    ∧ ((∀ x ∈ items, (fn x).pushVal = (g x).pushVal) →
        items.filterMap (fun x => (fn x).pushVal)
          = items.filterMap (fun x => (g x).pushVal)) := by
  refine ⟨rfl, ?_, ?_⟩
  · intro hs
    have hres := qrun_complete false fn items workers s (fun _ _ _ => rfl) hs
    refine ⟨hres, ?_⟩
    rw [post_allocated_multithread_collect, hres]
    induction items with
    | nil => rfl
    | cons x xs ih => simp [List.filterMap_cons, ih]
  · intro hagree
    induction items with
    | nil => rfl
    | cons x xs ih =>
      have hx : (fn x).pushVal = (g x).pushVal := hagree x (by simp)
      have ihx := ih (fun y hy => hagree y (by simp [hy]))
      simp only [List.filterMap_cons, hx, ihx]

/-- Witness for C9 at a concrete input: a raising item and a
None-returning item both vanish from the returned list. -/
theorem C9_witness :
    ((qrun false cexConstNone [0, 0] (initQState [0] 1)).results.length = [0].length →
      (qrun false cexConstNone [0, 0] (initQState [0] 1)).results
          = [0].map (fun x => (cexConstNone x).pushVal)
      ∧ post_allocated_multithread_collect
            (qrun false cexConstNone [0, 0] (initQState [0] 1)).results
          = [0].filterMap (fun x => (cexConstNone x).pushVal))
    ∧ [0].filterMap (fun x => (cexConstNone x).pushVal)
        = [0].filterMap (fun x => (cexRaisesOnZero x).pushVal) :=
  ⟨(C9_thread_none_indistinguishable cexConstNone cexRaisesOnZero [0] 1 [0, 0]).2.1,
    (C9_thread_none_indistinguishable cexConstNone cexRaisesOnZero [0] 1 [0, 0]).2.2
      (by decide)⟩

theorem getD_set_self {γ : Type} (l : List γ) (i : Nat) (v d : γ)
    (h : i < l.length) : (l.set i v).getD i d = v := by
  induction l generalizing i with
  | nil => simp at h
  | cons x xs ih =>
    cases i with
    | zero => rfl
    | succ k => simpa [List.getD_cons_succ] using ih k (by simpa using h)

theorem getD_set_other {γ : Type} (l : List γ) (i j : Nat) (v : γ) (d : γ)
    (h : i ≠ j) : (l.set i v).getD j d = l.getD j d := by
  induction l generalizing i j with
  | nil => rfl
  | cons x xs ih =>
    cases i with
    | zero =>
      cases j with
      | zero => exact absurd rfl h
      | succ m => rfl
    | succ k =>
      cases j with
      | zero => rfl
      | succ m =>
        simpa [List.getD_cons_succ] using ih k m (fun hkm => h (by rw [hkm]))

theorem getD_replicate_self {γ : Type} (n j : Nat) (d : γ) :
    (List.replicate n d).getD j d = d := by
  induction n generalizing j with
  | zero => rfl
  | succ m ih =>
    cases j with
    | zero => rfl
    | succ k =>
      rw [List.replicate_succ, List.getD_cons_succ]
      exact ih k

theorem rr_fold_length {α : Type} (n : Nat) (pairs : List (Nat × α))
    (buckets : List (List α)) :
    (pairs.foldl
      (fun b p => b.set (p.1 % n) (b.getD (p.1 % n) [] ++ [p.2])) buckets).length
    = buckets.length := by
  induction pairs generalizing buckets with
  | nil => rfl
  | cons p ps ih => simpa using ih (buckets.set (p.1 % n) (buckets.getD (p.1 % n) [] ++ [p.2]))

theorem rr_fold_getD {α : Type} (n : Nat) (hn : 0 < n) (pairs : List (Nat × α))
    (buckets : List (List α)) (hlen : buckets.length = n) (w : Nat) (_hw : w < n) :
    (pairs.foldl
      (fun b p => b.set (p.1 % n) (b.getD (p.1 % n) [] ++ [p.2])) buckets).getD w []
    = buckets.getD w [] ++ (pairs.filter (fun p => p.1 % n == w)).map Prod.snd := by
  induction pairs generalizing buckets with
  | nil => simp
  | cons p ps ih =>
    have hmod : p.1 % n < buckets.length := by rw [hlen]; exact Nat.mod_lt _ hn
    have hstep := ih (buckets.set (p.1 % n) (buckets.getD (p.1 % n) [] ++ [p.2]))
      (by simpa using hlen)
    by_cases hpw : p.1 % n = w
    · rw [List.foldl_cons, hstep,
        (by rw [hpw] at hmod ⊢; exact getD_set_self buckets w _ [] hmod :
          (buckets.set (p.1 % n) (buckets.getD (p.1 % n) [] ++ [p.2])).getD w []
            = buckets.getD (p.1 % n) [] ++ [p.2])]
      simp [List.filter_cons, hpw]
    · rw [List.foldl_cons, hstep, getD_set_other _ _ _ _ _ hpw]
      simp [List.filter_cons, hpw]

/-- The round-robin split sends item i to bucket (i mod num_workers):
the split equals the list of per-worker round-robin sub-lists. -/
theorem split_data_characterization {α : Type} (data : List α) (n : Nat)
    (hn : 0 < n) :
    split_data_for_workers data n = (List.range n).map (roundRobinBucket data n) := by
  have hlen : (split_data_for_workers data n).length = n := by
    unfold split_data_for_workers
    rw [rr_fold_length]
    simp
  apply List.ext_getElem
  · simpa using hlen
  · intro i h1 h2
    have hi : i < n := by rwa [hlen] at h1
    have hgetD : (split_data_for_workers data n).getD i [] = roundRobinBucket data n i := by
      unfold split_data_for_workers roundRobinBucket
      rw [rr_fold_getD n hn data.enum (List.replicate n []) (by simp) i hi]
      simp [getD_replicate_self]
    rw [← List.getD_eq_getElem _ [] h1, hgetD]
    simp [roundRobinBucket]

/-- C3 (amended).  The Static-Partition Executor splits its input by
round-robin index assignment — item i goes to worker (i mod workers) —
but the list the wrapper returns is the concatenation of the workers'
result sub-lists in the order the workers completed (the order their
sub-lists were put on the shared result queue), not necessarily
worker-index order: for any completion order (a permutation of the
worker indices) the result is a permutation of the worker-index-order
concatenation, and equals it when the completion order is the index
order. -/
theorem C3_static_partition {α β : Type} (data : List α) (n : Nat) (hn : 1 ≤ n)
    (fn : Nat → List α → List β) (completion_order : List Nat)
    (horder : completion_order.Perm (List.range n)) :
    split_data_for_workers data n = (List.range n).map (roundRobinBucket data n)
    ∧ (pre_allocated_multiprocess fn data n completion_order).Perm
        (pre_allocated_multiprocess fn data n (List.range n))
    ∧ pre_allocated_multiprocess fn data n (List.range n)
        = ((List.range n).map (fun w => fn w (roundRobinBucket data n w))).flatten := by
  refine ⟨split_data_characterization data n hn, ?_, ?_⟩
  · exact (horder.map _).flatten
  · unfold pre_allocated_multiprocess
    congr 1
    apply List.map_congr_left
    intro w hw
    have hwn : w < n := List.mem_range.mp hw
    congr 1
    rw [split_data_characterization data n hn]
    rw [List.getD_eq_getElem _ [] (by simpa using hwn)]
    simp

/-- C3 counterexample, refuting the worker-index ordering as stated:
with two workers completing in the order worker 1 then worker 0 and the
identity per-worker function, the wrapper returns [20, 10], not the
worker-index-order concatenation [10, 20]. -/
theorem C3_counterexample :
    pre_allocated_multiprocess (fun _ l => l) [10, 20] 2 [1, 0] = [20, 10]
    ∧ pre_allocated_multiprocess (fun _ l => l) [10, 20] 2 (List.range 2) = [10, 20]
    ∧ ([1, 0] : List Nat).Perm (List.range 2)
    ∧ ([20, 10] : List Nat) ≠ [10, 20] := by
  exact ⟨by decide, by decide, by decide, by decide⟩

/-- Witness for C3 at a concrete input. -/
theorem C3_witness :
    split_data_for_workers [10, 20, 30] 2 = (List.range 2).map (roundRobinBucket [10, 20, 30] 2)
    ∧ (pre_allocated_multiprocess (fun _ l => l) [10, 20, 30] 2 [1, 0]).Perm
        (pre_allocated_multiprocess (fun _ l => l) [10, 20, 30] 2 (List.range 2))
    ∧ pre_allocated_multiprocess (fun _ l => l) [10, 20, 30] 2 (List.range 2)
        = ((List.range 2).map
            (fun w => (fun (_ : Nat) (l : List Nat) => l) w (roundRobinBucket [10, 20, 30] 2 w))).flatten :=
  C3_static_partition [10, 20, 30] 2 (by decide) (fun _ l => l) [1, 0] (by decide)

theorem reduceStep_of_none (m : List (String × TRec)) (r : TRec)
    (h : alookup m r.item_id = none) : reduceStep m r = aset m r.item_id r := by
  unfold reduceStep
  rw [h]

theorem reduceStep_of_some (m : List (String × TRec)) (r prev : TRec)
    (h : alookup m r.item_id = some prev) :
    reduceStep m r = if prev.turn < r.turn then aset m r.item_id r else m := by
  unfold reduceStep
  rw [h]

theorem reduceStep_mono (m : List (String × TRec)) (r : TRec) (id : String)
    (prev : TRec) (h : alookup m id = some prev) :
    ∃ stored, alookup (reduceStep m r) id = some stored ∧ prev.turn ≤ stored.turn := by
  by_cases hid : r.item_id = id
  · subst hid
    rw [reduceStep_of_some m r prev h]
    by_cases hlt : prev.turn < r.turn
    · exact ⟨r, by rw [if_pos hlt]; exact alookup_aset_self m r.item_id r, Nat.le_of_lt hlt⟩
    · exact ⟨prev, by rw [if_neg hlt]; exact h, Nat.le_refl _⟩
  · match halk : alookup m r.item_id with
    | none =>
      rw [reduceStep_of_none m r halk]
      exact ⟨prev, by rw [alookup_aset_other m r.item_id id r hid]; exact h, Nat.le_refl _⟩
    | some p =>
      rw [reduceStep_of_some m r p halk]
      by_cases hlt : p.turn < r.turn
      · exact ⟨prev, by rw [if_pos hlt, alookup_aset_other m r.item_id id r hid]; exact h,
          Nat.le_refl _⟩
      · exact ⟨prev, by rw [if_neg hlt]; exact h, Nat.le_refl _⟩

theorem reduceStep_stores (m : List (String × TRec)) (r : TRec) :
    ∃ stored, alookup (reduceStep m r) r.item_id = some stored ∧ r.turn ≤ stored.turn := by
  match halk : alookup m r.item_id with
  | none =>
    rw [reduceStep_of_none m r halk]
    exact ⟨r, alookup_aset_self m r.item_id r, Nat.le_refl _⟩
  | some prev =>
    rw [reduceStep_of_some m r prev halk]
    by_cases hlt : prev.turn < r.turn
    · exact ⟨r, by rw [if_pos hlt]; exact alookup_aset_self m r.item_id r, Nat.le_refl _⟩
    · exact ⟨prev, by rw [if_neg hlt]; exact halk, Nat.le_of_not_lt hlt⟩

theorem reduceStep_lookup_src (m : List (String × TRec)) (r : TRec) (id : String)
    (rec : TRec) (h : alookup (reduceStep m r) id = some rec) :
    alookup m id = some rec ∨ (rec = r ∧ r.item_id = id) := by
  by_cases hid : r.item_id = id
  · subst hid
    match halk : alookup m r.item_id with
    | none =>
      rw [reduceStep_of_none m r halk, alookup_aset_self m r.item_id r] at h
      exact Or.inr ⟨(Option.some_inj.mp h).symm, rfl⟩
    | some prev =>
      rw [reduceStep_of_some m r prev halk] at h
      by_cases hlt : prev.turn < r.turn
      · rw [if_pos hlt, alookup_aset_self m r.item_id r] at h
        exact Or.inr ⟨(Option.some_inj.mp h).symm, rfl⟩
      · rw [if_neg hlt] at h
        exact Or.inl (halk ▸ h)
  · match halk : alookup m r.item_id with
    | none =>
      rw [reduceStep_of_none m r halk, alookup_aset_other m r.item_id id r hid] at h
      exact Or.inl h
    | some prev =>
      rw [reduceStep_of_some m r prev halk] at h
      by_cases hlt : prev.turn < r.turn
      · rw [if_pos hlt, alookup_aset_other m r.item_id id r hid] at h
        exact Or.inl h
      · rw [if_neg hlt] at h
        exact Or.inl h

theorem reduce_foldl_max (rs : List TRec) (m : List (String × TRec)) (id : String)
    (rec : TRec) (h : alookup (rs.foldl reduceStep m) id = some rec) :
    (alookup m id = some rec ∨ (rec ∈ rs ∧ rec.item_id = id))
    ∧ (∀ r ∈ rs, r.item_id = id → r.turn ≤ rec.turn)
    ∧ (∀ prev, alookup m id = some prev → prev.turn ≤ rec.turn) := by
  induction rs generalizing m with
  | nil =>
    simp only [List.foldl_nil] at h
    refine ⟨Or.inl h, by simp, fun prev hp => ?_⟩
    rw [h] at hp
    rw [Option.some_inj.mp hp]
  | cons r rs ih =>
    obtain ⟨hsrc, hmax, hprev⟩ := ih (reduceStep m r) (by simpa [List.foldl_cons] using h)
    refine ⟨?_, ?_, ?_⟩
    · rcases hsrc with hsm | ⟨hmem, hid⟩
      · rcases reduceStep_lookup_src m r id rec hsm with hm | ⟨hrr, hid⟩
        · exact Or.inl hm
        · exact Or.inr ⟨by rw [hrr]; exact List.mem_cons_self r rs, by rw [hrr]; exact hid⟩
      · exact Or.inr ⟨List.mem_cons_of_mem r hmem, hid⟩
    · intro r' hr' hid'
      rcases List.mem_cons.mp hr' with hr'' | hr''
      · subst hr''
        obtain ⟨stored, hs, hrs⟩ := reduceStep_stores m r'
        rw [hid'] at hs
        exact Nat.le_trans hrs (hprev stored hs)
      · exact hmax r' hr'' hid'
    · intro prev hp
      obtain ⟨stored, hs, hps⟩ := reduceStep_mono m r id prev hp
      exact Nat.le_trans hps (hprev stored hs)

/-- C4 (confirmed).  The caller-side reduction keeps, per item_id, only
a TaskResult of that item carrying the maximal turn among the stream's
results for it; and in the two-turn scenario — turn 0 returning
"partial" with a turn-1 child, turn 1 returning "final" with no
children — running the scheduler and reducing yields "final" for item
"x", in either arrival order, never "partial". -/
theorem C4_highest_turn_wins :
    (∀ (results : List TRec) (id : String) (rec : TRec),
        alookup (process_turn_reduce results) id = some rec →
        rec ∈ results ∧ rec.item_id = id
          ∧ ∀ r ∈ results, r.item_id = id → r.turn ≤ rec.turn)
    ∧ (alookup (process_turn_reduce (dynRun scenarioTurnFn 10 [⟨"t0", "x", 0⟩])) "x").map
        TRec.result = some (some "final")
    ∧ (alookup (process_turn_reduce
        [⟨"t1", "x", 1, some "final"⟩, ⟨"t0", "x", 0, some "partial"⟩]) "x").map
        TRec.result = some (some "final") := by
  refine ⟨fun results id rec h => ?_, by decide, by decide⟩
  obtain ⟨hsrc, hmax, _⟩ := reduce_foldl_max results [] id rec h
  rcases hsrc with hempty | ⟨hmem, hid⟩
  · exact absurd hempty (by simp [alookup])
  · exact ⟨hmem, hid, hmax⟩

/-- Witness for C4 at a concrete stream. -/
theorem C4_witness :
    (⟨"t1", "x", 1, some "final"⟩ : TRec) ∈
        [(⟨"t0", "x", 0, some "partial"⟩ : TRec), ⟨"t1", "x", 1, some "final"⟩]
    ∧ (⟨"t1", "x", 1, some "final"⟩ : TRec).item_id = "x"
    ∧ ∀ r ∈ [(⟨"t0", "x", 0, some "partial"⟩ : TRec), ⟨"t1", "x", 1, some "final"⟩],
        r.item_id = "x" → r.turn ≤ (⟨"t1", "x", 1, some "final"⟩ : TRec).turn :=
  C4_highest_turn_wins.1
    [⟨"t0", "x", 0, some "partial"⟩, ⟨"t1", "x", 1, some "final"⟩]
    "x" ⟨"t1", "x", 1, some "final"⟩ (by decide)

theorem ByteSeq.app_size (a b : ByteSeq) : (a.app b).size = a.size + b.size := rfl

theorem ByteSeq.app_byteAt_left (a b : ByteSeq) (i : Nat) (h : i < a.size) :
    (a.app b).byteAt i = a.byteAt i := by
  simp [ByteSeq.app, h]

theorem ByteSeq.app_byteAt_right (a b : ByteSeq) (i : Nat) (h : a.size ≤ i) :
    (a.app b).byteAt i = b.byteAt (i - a.size) := by
  simp [ByteSeq.app, Nat.not_lt.mpr h]

/-- C5 (amended).  For every file of size at least 10 MiB, the digest
input of get_file_hash_fast is: the first 1 MiB of the file, then the
1 MiB starting at the file midpoint (byte offset size // 2 — not the
1 MiB centered there), then the last 1 MiB, then the ASCII decimal
string of the exact size; the two size guards (size > 2 MiB,
size > 1 MiB) always hold on this branch.  The returned hash is the
digest's hex string prefixed "fast_". -/
theorem C5_content_hasher (md5hex : ByteSeq → String) (f : ByteSeq)
    (h : 10 * mib ≤ f.size) :
    get_file_hash_fast md5hex f = "fast_" ++ md5hex (digestInputFast f)
    ∧ (digestInputFast f).size = 3 * mib + (toString f.size).length
    ∧ (∀ i, i < mib → (digestInputFast f).byteAt i = f.byteAt i)
    ∧ (∀ i, mib ≤ i → i < 2 * mib →
        (digestInputFast f).byteAt i = f.byteAt (f.size / 2 + (i - mib)))
    ∧ (∀ i, 2 * mib ≤ i → i < 3 * mib →
        (digestInputFast f).byteAt i = f.byteAt (f.size - mib + (i - 2 * mib)))
    ∧ (∀ i, 3 * mib ≤ i →
        (digestInputFast f).byteAt i = (strBytes (toString f.size)).byteAt (i - 3 * mib)) := by
  have hm : mib = 1048576 := rfl
  have hmid_if : (if 2 * mib < f.size then f.read (f.size / 2) mib else ByteSeq.empty)
      = f.read (f.size / 2) mib := if_pos (by omega)
  have htail_if : (if mib < f.size then f.readAll (f.size - mib) else ByteSeq.empty)
      = f.readAll (f.size - mib) := if_pos (by omega)
  have hhead : (f.read 0 mib).size = mib := by
    simp only [ByteSeq.read]
    omega
  have hmid : (f.read (f.size / 2) mib).size = mib := by
    simp only [ByteSeq.read]
    omega
  have htail : (f.readAll (f.size - mib)).size = mib := by
    simp only [ByteSeq.readAll]
    omega
  have hdig : digestInputFast f
      = (f.read 0 mib).app ((f.read (f.size / 2) mib).app
          ((f.readAll (f.size - mib)).app (strBytes (toString f.size)))) := by
    rw [digestInputFast, hmid_if, htail_if]
  refine ⟨?_, ?_, ?_, ?_, ?_, ?_⟩
  · rw [get_file_hash_fast, if_neg (by omega), if_neg (by omega)]
  · rw [hdig, ByteSeq.app_size, ByteSeq.app_size, ByteSeq.app_size,
      hhead, hmid, htail]
    have : (strBytes (toString f.size)).size = (toString f.size).length := rfl
    omega
  · intro i hi
    rw [hdig, ByteSeq.app_byteAt_left _ _ i (by omega)]
    show f.byteAt (0 + i) = f.byteAt i
    rw [Nat.zero_add]
  · intro i hi1 hi2
    rw [hdig, ByteSeq.app_byteAt_right _ _ i (by omega), hhead,
      ByteSeq.app_byteAt_left _ _ (i - mib) (by omega)]
    rfl
  · intro i hi1 hi2
    rw [hdig, ByteSeq.app_byteAt_right _ _ i (by omega), hhead,
      ByteSeq.app_byteAt_right _ _ (i - mib) (by omega), hmid,
      ByteSeq.app_byteAt_left _ _ (i - mib - mib) (by omega)]
    show f.byteAt (f.size - mib + (i - mib - mib)) = f.byteAt (f.size - mib + (i - 2 * mib))
    have harg : i - mib - mib = i - 2 * mib := by omega
    rw [harg]
  · intro i hi
    rw [hdig, ByteSeq.app_byteAt_right _ _ i (by omega), hhead,
      ByteSeq.app_byteAt_right _ _ (i - mib) (by omega), hmid,
      ByteSeq.app_byteAt_right _ _ (i - mib - mib) (by omega), htail]
    have harg : i - mib - mib - mib = i - 3 * mib := by omega
    rw [harg]

/-- C5 counterexample, refuting the claim as stated: on a 10 MiB file
whose byte at i is i mod 251, the code's digest input and the digest
input built from "the 1 MiB centered at the file midpoint" differ at the
first byte of the middle chunk (offset 1 MiB of the digest input): the
code reads the byte at offset size // 2, the claim's wording the byte at
offset size // 2 - 512 KiB. -/
theorem C5_counterexample :
    (digestInputFast fileC5).byteAt mib = 243
    ∧ (digestInputCentered fileC5).byteAt mib = 43
    ∧ ¬ ByteSeq.Eqv (digestInputFast fileC5) (digestInputCentered fileC5) := by
  have h1 : (digestInputFast fileC5).byteAt mib = 243 := by decide
  have h2 : (digestInputCentered fileC5).byteAt mib = 43 := by decide
  refine ⟨h1, h2, fun hEqv => ?_⟩
  have hb := hEqv.2 mib (by decide)
  rw [h1, h2] at hb
  exact absurd hb (by decide)

/-- Witness for C5 at a concrete file. -/
theorem C5_witness :
    get_file_hash_fast (fun _ => "H") fileC5
        = "fast_" ++ (fun _ => "H") (digestInputFast fileC5)
    ∧ (digestInputFast fileC5).size = 3 * mib + (toString fileC5.size).length :=
  ⟨(C5_content_hasher (fun _ => "H") fileC5 (by decide)).1,
    (C5_content_hasher (fun _ => "H") fileC5 (by decide)).2.1⟩

theorem phr_skip_none (st : HashGroupState) (r : HashResult)
    (hfh : r.file_hash = none) : process_hash_result st r = st := by
  unfold process_hash_result
  rw [hfh]

theorem phr_skip_bad (st : HashGroupState) (r : HashResult) (h' : String)
    (hfh : r.file_hash = some h') (hbad : r.status ≠ "success" ∨ h' = "") :
    process_hash_result st r = st := by
  simp only [process_hash_result, hfh]
  rw [if_pos hbad]

theorem phr_eq_new (st : HashGroupState) (r : HashResult) (h' : String)
    (hfh : r.file_hash = some h') (hgood : ¬(r.status ≠ "success" ∨ h' = ""))
    (halk : alookup st.group_hash_map h' = none) :
    process_hash_result st r =
      ⟨⟨aset st.core.media_counters (r.media_file.dataset_name, r.media_file.media_type)
          ((alookup st.core.media_counters
            (r.media_file.dataset_name, r.media_file.media_type)).getD 0 + 1),
        aset st.core.unique_files h'
          ⟨r.media_file.media_type, r.media_file.src_path,
            (alookup st.core.media_counters
              (r.media_file.dataset_name, r.media_file.media_type)).getD 0 + 1,
            r.media_file.suffix, r.media_file.size, r.media_file.dataset_name⟩,
        aset st.core.path_mapping r.media_file.src_path
          (relPathOf r.media_file.media_type
            ((alookup st.core.media_counters
              (r.media_file.dataset_name, r.media_file.media_type)).getD 0 + 1)
            r.media_file.suffix)⟩,
        aset st.group_hash_map h'
          ⟨r.media_file.media_type, r.media_file.src_path,
            (alookup st.core.media_counters
              (r.media_file.dataset_name, r.media_file.media_type)).getD 0 + 1,
            r.media_file.suffix, r.media_file.size, r.media_file.dataset_name⟩⟩ := by
  simp only [process_hash_result, hfh]
  rw [if_neg hgood]
  simp only [halk]

theorem phr_eq_dup (st : HashGroupState) (r : HashResult) (h' : String) (e : UniqueEntry)
    (hfh : r.file_hash = some h') (hgood : ¬(r.status ≠ "success" ∨ h' = ""))
    (halk : alookup st.group_hash_map h' = some e) :
    process_hash_result st r =
      ⟨⟨st.core.media_counters, st.core.unique_files,
        aset st.core.path_mapping r.media_file.src_path
          (relPathOf e.media_type e.idx e.suffix)⟩,
        st.group_hash_map⟩ := by
  simp only [process_hash_result, hfh]
  rw [if_neg hgood]
  simp only [halk]

theorem phr_fold_pm_none (results : List HashResult) (st : HashGroupState) (p : String)
    (hpm : alookup st.core.path_mapping p = none)
    (hres : ∀ r ∈ results, r.media_file.src_path = p → r.file_hash = none) :
    alookup (results.foldl process_hash_result st).core.path_mapping p = none := by
  induction results generalizing st with
  | nil => exact hpm
  | cons r rs ih =>
    have hstep : alookup (process_hash_result st r).core.path_mapping p = none := by
      match hfh : r.file_hash with
      | none => rw [phr_skip_none st r hfh]; exact hpm
      | some h' =>
        by_cases hbad : r.status ≠ "success" ∨ h' = ""
        · rw [phr_skip_bad st r h' hfh hbad]; exact hpm
        · have hnp : r.media_file.src_path ≠ p := by
            intro hp
            have := hres r (List.mem_cons_self r rs) hp
            rw [hfh] at this
            cases this
          match halk : alookup st.group_hash_map h' with
          | none =>
            rw [phr_eq_new st r h' hfh hbad halk]
            exact (alookup_aset_other st.core.path_mapping r.media_file.src_path p _ hnp).trans hpm
          | some e =>
            rw [phr_eq_dup st r h' e hfh hbad halk]
            exact (alookup_aset_other st.core.path_mapping r.media_file.src_path p _ hnp).trans hpm
    exact ih (process_hash_result st r) hstep
      (fun r' hr' => hres r' (List.mem_cons_of_mem r hr'))

theorem phr_fold_uf_ne (results : List HashResult) (st : HashGroupState) (p : String)
    (huf : ∀ h e, alookup st.core.unique_files h = some e → e.src_path ≠ p)
    (hres : ∀ r ∈ results, r.media_file.src_path = p → r.file_hash = none) :
    ∀ h e, alookup (results.foldl process_hash_result st).core.unique_files h = some e →
      e.src_path ≠ p := by
  induction results generalizing st with
  | nil => exact huf
  | cons r rs ih =>
    have hstep : ∀ h e, alookup (process_hash_result st r).core.unique_files h = some e →
        e.src_path ≠ p := by
      match hfh : r.file_hash with
      | none => rw [phr_skip_none st r hfh]; exact huf
      | some h' =>
        by_cases hbad : r.status ≠ "success" ∨ h' = ""
        · rw [phr_skip_bad st r h' hfh hbad]; exact huf
        · have hnp : r.media_file.src_path ≠ p := by
            intro hp
            have := hres r (List.mem_cons_self r rs) hp
            rw [hfh] at this
            cases this
          match halk : alookup st.group_hash_map h' with
          | none =>
            rw [phr_eq_new st r h' hfh hbad halk]
            intro h e he
            by_cases hh : h' = h
            · subst hh
              rw [alookup_aset_self] at he
              rw [← Option.some_inj.mp he]
              exact hnp
            · rw [alookup_aset_other _ _ _ _ hh] at he
              exact huf h e he
          | some e0 =>
            rw [phr_eq_dup st r h' e0 hfh hbad halk]
            exact huf
    exact ih (process_hash_result st r) hstep
      (fun r' hr' => hres r' (List.mem_cons_of_mem r hr'))

/-- C6 (amended).  Whenever hashing a file fails — its concurrent hash
result carries no hash (None), an empty hash, or a non-"success" status
— the dedup loop skips that result entirely, leaving the state
unchanged: the file receives no UniqueFileEntry and no PathMapping
target and is silently dropped from the dedup output, rather than being
treated as unique. -/
theorem C6_hash_failure_drops :
    (∀ (st : HashGroupState) (r : HashResult),
        r.file_hash = none → process_hash_result st r = st)
    ∧ (∀ (results : List HashResult) (p : String),
        (∀ r ∈ results, r.media_file.src_path = p → r.file_hash = none) →
        alookup (process_hash_group_concurrent_zip ⟨[], [], []⟩ results).path_mapping p = none
        ∧ ∀ h e,
            alookup (process_hash_group_concurrent_zip ⟨[], [], []⟩ results).unique_files h
              = some e → e.src_path ≠ p) := by
  refine ⟨phr_skip_none, fun results p hres => ⟨?_, ?_⟩⟩
  · exact phr_fold_pm_none results ⟨⟨[], [], []⟩, []⟩ p rfl hres
  · exact phr_fold_uf_ne results ⟨⟨[], [], []⟩, []⟩ p (fun h e he => by cases he) hres

/-- C6 counterexample, refuting the claim as stated: a file whose
hashing yielded no hash (result status "success", file_hash None)
leaves the dedup state empty — it gets no UniqueFileEntry and no
PathMapping target. -/
theorem C6_counterexample :
    process_hash_group_concurrent_zip ⟨[], [], []⟩ [⟨"success", none, mfA⟩]
        = ⟨[], [], []⟩
    ∧ alookup (process_hash_group_concurrent_zip ⟨[], [], []⟩
        [⟨"success", none, mfA⟩]).path_mapping "/a/1.jpg" = none
    ∧ (process_hash_group_concurrent_zip ⟨[], [], []⟩
        [⟨"success", none, mfA⟩]).unique_files = []
    ∧ mfA.src_path = "/a/1.jpg" := by
  exact ⟨by decide, by decide, by decide, by decide⟩

/-- Witness for C6 at a concrete result list. -/
theorem C6_witness :
    process_hash_result ⟨⟨[], [], []⟩, []⟩ ⟨"success", none, mfA⟩ = ⟨⟨[], [], []⟩, []⟩
    ∧ alookup (process_hash_group_concurrent_zip ⟨[], [], []⟩
        [⟨"success", none, mfB⟩]).path_mapping "/b/1.jpg" = none :=
  ⟨C6_hash_failure_drops.1 ⟨⟨[], [], []⟩, []⟩ ⟨"success", none, mfA⟩ rfl,
    (C6_hash_failure_drops.2 [⟨"success", none, mfB⟩] "/b/1.jpg" (by decide)).1⟩

/-- C10 (confirmed).  On an input holding unique files of two different
datasets with the same media type and suffix, the per-(dataset,
media_type) counters each restart at 1 while the destination string
omits the dataset name, so two source files with different content
(here: different sizes) are mapped to the identical relative
destination "MediaFiles/images/1.jpg". -/
theorem C10_destination_collision :
    alookup dedupC10.path_mapping "/a/1.jpg" = some "MediaFiles/images/1.jpg"
    ∧ alookup dedupC10.path_mapping "/b/1.jpg" = some "MediaFiles/images/1.jpg"
    ∧ mfA.src_path ≠ mfB.src_path
    ∧ mfA.dataset_name ≠ mfB.dataset_name
    ∧ mfA.media_type = mfB.media_type
    ∧ mfA.suffix = mfB.suffix
    ∧ statC10 mfA.src_path ≠ statC10 mfB.src_path
    ∧ alookup dedupC10.media_counters ("A", "images") = some 1
    ∧ alookup dedupC10.media_counters ("B", "images") = some 1 := by
  refine ⟨by decide, by decide, by decide, by decide, by decide, by decide, by decide,
    by decide, by decide⟩

theorem allocStep_not_seal (jsonl_data : List (String × String)) (base cap : Nat)
    (vols : List Volume) (cur : Volume) (e : ZEntry)
    (h : ¬(cap < cur.size + e.size ∧ cur.files ≠ [])) :
    allocStep jsonl_data base cap (vols, cur) e
      = (vols, ⟨cur.files ++ [e], cur.jsonl, cur.config, cur.size + e.size⟩) := by
  unfold allocStep
  exact if_neg h

theorem allocStep_absorb (jsonl_data : List (String × String)) (base cap : Nat)
    (vols : List Volume) (cur : Volume) (e : ZEntry) (h : cur.size + e.size ≤ cap) :
    allocStep jsonl_data base cap (vols, cur) e
      = (vols, ⟨cur.files ++ [e], cur.jsonl, cur.config, cur.size + e.size⟩) :=
  allocStep_not_seal jsonl_data base cap vols cur e
    (fun hc => absurd hc.1 (Nat.not_lt.mpr h))

theorem allocStep_seal (jsonl_data : List (String × String)) (base cap : Nat)
    (vols : List Volume) (cur : Volume) (e : ZEntry)
    (h1 : cap < cur.size + e.size) (h2 : cur.files ≠ []) :
    allocStep jsonl_data base cap (vols, cur) e
      = (vols ++ [cur], ⟨[e], jsonl_data, none, base + e.size⟩) := by
  unfold allocStep
  exact if_pos ⟨h1, h2⟩

theorem alloc_fold_size_inv (jsonl_data : List (String × String)) (base cap : Nat)
    (l : List ZEntry) (vols : List Volume) (cur : Volume)
    (hvols : ∀ v ∈ vols, v.files ≠ []
      ∧ v.size = base + (v.files.map ZEntry.size).sum
      ∧ (2 ≤ v.files.length → v.size ≤ cap))
    (hcur1 : cur.size = base + (cur.files.map ZEntry.size).sum)
    (hcur2 : 2 ≤ cur.files.length → cur.size ≤ cap) :
    (∀ v ∈ (l.foldl (allocStep jsonl_data base cap) (vols, cur)).1, v.files ≠ []
      ∧ v.size = base + (v.files.map ZEntry.size).sum
      ∧ (2 ≤ v.files.length → v.size ≤ cap))
    ∧ (l.foldl (allocStep jsonl_data base cap) (vols, cur)).2.size
        = base + ((l.foldl (allocStep jsonl_data base cap) (vols, cur)).2.files.map ZEntry.size).sum
    ∧ (2 ≤ (l.foldl (allocStep jsonl_data base cap) (vols, cur)).2.files.length →
        (l.foldl (allocStep jsonl_data base cap) (vols, cur)).2.size ≤ cap) := by
  induction l generalizing vols cur with
  | nil => exact ⟨hvols, hcur1, hcur2⟩
  | cons e es ih =>
    rw [List.foldl_cons]
    by_cases hcond : cap < cur.size + e.size ∧ cur.files ≠ []
    · rw [allocStep_seal jsonl_data base cap vols cur e hcond.1 hcond.2]
      refine ih (vols ++ [cur]) ⟨[e], jsonl_data, none, base + e.size⟩ ?_ (by simp) (by simp)
      intro v hv
      rcases List.mem_append.mp hv with hv' | hv'
      · exact hvols v hv'
      · rw [List.mem_singleton.mp hv']
        exact ⟨hcond.2, hcur1, hcur2⟩
    · rw [allocStep_not_seal jsonl_data base cap vols cur e hcond]
      refine ih vols ⟨cur.files ++ [e], cur.jsonl, cur.config, cur.size + e.size⟩ hvols ?_ ?_
      · show cur.size + e.size = base + ((cur.files ++ [e]).map ZEntry.size).sum
        rw [hcur1]
        simp [Nat.add_assoc]
      · show 2 ≤ (cur.files ++ [e]).length → cur.size + e.size ≤ cap
        intro hlen
        by_cases hemp : cur.files = []
        · rw [hemp] at hlen
          simp at hlen
        · have : ¬ cap < cur.size + e.size := fun hlt => hcond ⟨hlt, hemp⟩
          exact Nat.le_of_not_lt this

/-- C7 (amended).  For every entry list, shared payload and cap, every
produced Volume is non-empty, its size is the base overhead of the
shared payload plus the sum of its entries' sizes, and no Volume's size
exceeds cap_bytes unless it contains exactly one entry — one whose size
plus the base overhead exceeds cap_bytes (the entry's own size alone
need not exceed the cap).  A running volume absorbs an entry while
current_size + entry.size <= cap_bytes; when an entry would overflow a
non-empty running volume, the volume is sealed and a fresh one
started. -/
theorem C7_volume_packer (entries : List ZEntry) (jsonl_data : List (String × String))
    (config : Option String) (cap : Nat) :
    (∀ v ∈ allocate_files_to_volumes entries jsonl_data config cap,
        v.files ≠ []
        ∧ v.size = base_overhead jsonl_data config + (v.files.map ZEntry.size).sum
        ∧ (cap < v.size →
            ∃ e, v.files = [e] ∧ cap < base_overhead jsonl_data config + e.size))
    ∧ (∀ (vols : List Volume) (cur : Volume) (e : ZEntry), cur.size + e.size ≤ cap →
        allocStep jsonl_data (base_overhead jsonl_data config) cap (vols, cur) e
          = (vols, ⟨cur.files ++ [e], cur.jsonl, cur.config, cur.size + e.size⟩))
    ∧ (∀ (vols : List Volume) (cur : Volume) (e : ZEntry),
        cap < cur.size + e.size → cur.files ≠ [] →
        allocStep jsonl_data (base_overhead jsonl_data config) cap (vols, cur) e
          = (vols ++ [cur],
              ⟨[e], jsonl_data, none, base_overhead jsonl_data config + e.size⟩)) := by
  refine ⟨?_, allocStep_absorb jsonl_data _ cap, allocStep_seal jsonl_data _ cap⟩
  intro v hv
  have hinv := alloc_fold_size_inv jsonl_data (base_overhead jsonl_data config) cap
    (sortDescBySize entries) []
    ⟨[], jsonl_data, config, base_overhead jsonl_data config⟩
    (by intro v hv; cases hv) (by simp) (by intro h; simp at h)
  have hbasic : v.files ≠ []
      ∧ v.size = base_overhead jsonl_data config + (v.files.map ZEntry.size).sum
      ∧ (2 ≤ v.files.length → v.size ≤ cap) := by
    unfold allocate_files_to_volumes at hv
    by_cases hfin : ((sortDescBySize entries).foldl
        (allocStep jsonl_data (base_overhead jsonl_data config) cap)
        ([], ⟨[], jsonl_data, config, base_overhead jsonl_data config⟩)).2.files ≠ []
    · rw [if_pos hfin] at hv
      rcases List.mem_append.mp hv with hv' | hv'
      · exact hinv.1 v hv'
      · rw [List.mem_singleton.mp hv']
        exact ⟨hfin, hinv.2.1, hinv.2.2⟩
    · rw [if_neg hfin] at hv
      exact hinv.1 v hv
  refine ⟨hbasic.1, hbasic.2.1, fun hover => ?_⟩
  have hlen : v.files.length = 1 := by
    have h2 : ¬ 2 ≤ v.files.length := fun h2 => absurd (hbasic.2.2 h2) (Nat.not_le.mpr hover)
    have hpos : 0 < v.files.length := List.length_pos.mpr hbasic.1
    omega
  obtain ⟨e, he⟩ := List.length_eq_one.mp hlen
  refine ⟨e, he, ?_⟩
  have : v.size = base_overhead jsonl_data config + e.size := by
    rw [hbasic.2.1, he]
    simp
  rw [← this]
  exact hover

/-- C7 counterexample, refuting the claim as stated: with an 8-byte
JSONL payload, no config, cap 10 and a single entry of size 3, the only
produced volume has size 11 > 10 although its single entry's own size,
3, does not exceed the cap — the overflow comes from the duplicated
shared payload, not from an oversized entry. -/
theorem C7_counterexample :
    allocate_files_to_volumes [⟨"f", 3⟩] [("m", "12345678")] none 10
        = [⟨[⟨"f", 3⟩], [("m", "12345678")], none, 11⟩]
    ∧ (10 : Nat) < 11
    ∧ ¬ (10 : Nat) < 3 := by
  exact ⟨by decide, by decide, by decide⟩

/-- Witness for C7 at a concrete packing. -/
theorem C7_witness :
    (⟨[⟨"f", 3⟩], [("m", "12345678")], none, 11⟩ : Volume).files ≠ []
    ∧ (⟨[⟨"f", 3⟩], [("m", "12345678")], none, 11⟩ : Volume).size
        = base_overhead [("m", "12345678")] none
          + ((⟨[⟨"f", 3⟩], [("m", "12345678")], none, 11⟩ : Volume).files.map ZEntry.size).sum
    ∧ (10 < (⟨[⟨"f", 3⟩], [("m", "12345678")], none, 11⟩ : Volume).size →
        ∃ e, (⟨[⟨"f", 3⟩], [("m", "12345678")], none, 11⟩ : Volume).files = [e]
          ∧ 10 < base_overhead [("m", "12345678")] none + e.size) :=
  (C7_volume_packer [⟨"f", 3⟩] [("m", "12345678")] none 10).1
    ⟨[⟨"f", 3⟩], [("m", "12345678")], none, 11⟩ (by decide)

theorem payload_append (vols : List Volume) (cur : Volume) (config : Option String)
    (hc1 : ∀ v, vols.head? = some v → v.config = config)
    (hc2 : ∀ v ∈ vols.tail, v.config = none)
    (hc3 : vols = [] → cur.config = config)
    (hc4 : vols ≠ [] → cur.config = none) :
    (∀ v, (vols ++ [cur]).head? = some v → v.config = config)
    ∧ (∀ v ∈ (vols ++ [cur]).tail, v.config = none) := by
  cases vols with
  | nil =>
    refine ⟨fun v hv => ?_, fun v hv => ?_⟩
    · rw [Option.some_inj.mp hv.symm]
      exact hc3 rfl
    · simp at hv
  | cons v0 rest =>
    refine ⟨fun v hv => ?_, fun v hv => ?_⟩
    · exact hc1 v (by simpa using hv)
    · have hv2 : v ∈ rest ++ [cur] := by simpa using hv
      rcases List.mem_append.mp hv2 with hv' | hv'
      · exact hc2 v hv'
      · rw [List.mem_singleton.mp hv']
        exact hc4 (by simp)

theorem alloc_fold_payload (jsonl_data : List (String × String)) (base cap : Nat)
    (config : Option String) (l : List ZEntry) (vols : List Volume) (cur : Volume)
    (hj : ∀ v ∈ vols, v.jsonl = jsonl_data) (hjc : cur.jsonl = jsonl_data)
    (hc1 : ∀ v, vols.head? = some v → v.config = config)
    (hc2 : ∀ v ∈ vols.tail, v.config = none)
    (hc3 : vols = [] → cur.config = config)
    (hc4 : vols ≠ [] → cur.config = none) :
    (∀ v ∈ (l.foldl (allocStep jsonl_data base cap) (vols, cur)).1, v.jsonl = jsonl_data)
    ∧ (l.foldl (allocStep jsonl_data base cap) (vols, cur)).2.jsonl = jsonl_data
    ∧ (∀ v, (l.foldl (allocStep jsonl_data base cap) (vols, cur)).1.head? = some v →
        v.config = config)
    ∧ (∀ v ∈ (l.foldl (allocStep jsonl_data base cap) (vols, cur)).1.tail, v.config = none)
    ∧ ((l.foldl (allocStep jsonl_data base cap) (vols, cur)).1 = [] →
        (l.foldl (allocStep jsonl_data base cap) (vols, cur)).2.config = config)
    ∧ ((l.foldl (allocStep jsonl_data base cap) (vols, cur)).1 ≠ [] →
        (l.foldl (allocStep jsonl_data base cap) (vols, cur)).2.config = none) := by
  induction l generalizing vols cur with
  | nil => exact ⟨hj, hjc, hc1, hc2, hc3, hc4⟩
  | cons e es ih =>
    rw [List.foldl_cons]
    by_cases hcond : cap < cur.size + e.size ∧ cur.files ≠ []
    · rw [allocStep_seal jsonl_data base cap vols cur e hcond.1 hcond.2]
      have happ := payload_append vols cur config hc1 hc2 hc3 hc4
      refine ih (vols ++ [cur]) ⟨[e], jsonl_data, none, base + e.size⟩ ?_ rfl
        happ.1 happ.2 (fun habs => absurd habs (by simp)) (fun _ => rfl)
      intro v hv
      rcases List.mem_append.mp hv with hv' | hv'
      · exact hj v hv'
      · rw [List.mem_singleton.mp hv']
        exact hjc
    · rw [allocStep_not_seal jsonl_data base cap vols cur e hcond]
      exact ih vols ⟨cur.files ++ [e], cur.jsonl, cur.config, cur.size + e.size⟩
        hj hjc hc1 hc2 hc3 hc4

/-- C8 (amended).  The JSON-lines metadata payload is duplicated into
every produced Volume, but the config is not: it is carried only by the
first volume, and every later volume's config is None (even though the
size accounting of every volume still includes the config's byte
size). -/
theorem C8_shared_payload (entries : List ZEntry) (jsonl_data : List (String × String))
    (config : Option String) (cap : Nat) :
    (∀ v ∈ allocate_files_to_volumes entries jsonl_data config cap, v.jsonl = jsonl_data)
    ∧ (∀ v, (allocate_files_to_volumes entries jsonl_data config cap).head? = some v →
        v.config = config)
    ∧ (∀ v ∈ (allocate_files_to_volumes entries jsonl_data config cap).tail,
        v.config = none) := by
  have hpay := alloc_fold_payload jsonl_data (base_overhead jsonl_data config) cap config
    (sortDescBySize entries) [] ⟨[], jsonl_data, config, base_overhead jsonl_data config⟩
    (fun v hv => by cases hv) rfl (fun v hv => by cases hv) (fun v hv => by cases hv)
    (fun _ => rfl) (fun habs => absurd rfl habs)
  unfold allocate_files_to_volumes
  by_cases hfin : ((sortDescBySize entries).foldl
      (allocStep jsonl_data (base_overhead jsonl_data config) cap)
      ([], ⟨[], jsonl_data, config, base_overhead jsonl_data config⟩)).2.files ≠ []
  · rw [if_pos hfin]
    have happ := payload_append _ _ config hpay.2.2.1 hpay.2.2.2.1 hpay.2.2.2.2.1
      hpay.2.2.2.2.2
    refine ⟨fun v hv => ?_, happ.1, happ.2⟩
    rcases List.mem_append.mp hv with hv' | hv'
    · exact hpay.1 v hv'
    · rw [List.mem_singleton.mp hv']
      exact hpay.2.1
  · rw [if_neg hfin]
    exact ⟨hpay.1, hpay.2.2.1, hpay.2.2.2.1⟩

/-- C8 counterexample, refuting the claim as stated: with two size-9
entries, a config "c" (1 byte of overhead) and cap 10, two volumes are
produced; both carry the full JSONL payload, but only the first carries
the config — the second volume's config is None, so the config is not
duplicated into every volume. -/
theorem C8_counterexample :
    (allocate_files_to_volumes [⟨"a", 9⟩, ⟨"b", 9⟩] [] (some "c") 10).map Volume.config
        = [some "c", none]
    ∧ (allocate_files_to_volumes [⟨"a", 9⟩, ⟨"b", 9⟩] [] (some "c") 10).map Volume.jsonl
        = [[], []]
    ∧ (none : Option String) ≠ some "c" := by
  exact ⟨by decide, by decide, by decide⟩

/-- Witness for C8 at a concrete packing. -/
theorem C8_witness :
    (⟨[⟨"a", 9⟩], [], some "c", 10⟩ : Volume).jsonl = []
    ∧ (⟨[⟨"a", 9⟩], [], some "c", 10⟩ : Volume).config = some "c"
    ∧ (⟨[⟨"b", 9⟩], [], none, 10⟩ : Volume).config = none :=
  ⟨(C8_shared_payload [⟨"a", 9⟩, ⟨"b", 9⟩] [] (some "c") 10).1
      ⟨[⟨"a", 9⟩], [], some "c", 10⟩ (by decide),
    (C8_shared_payload [⟨"a", 9⟩, ⟨"b", 9⟩] [] (some "c") 10).2.1
      ⟨[⟨"a", 9⟩], [], some "c", 10⟩ (by decide),
    (C8_shared_payload [⟨"a", 9⟩, ⟨"b", 9⟩] [] (some "c") 10).2.2
      ⟨[⟨"b", 9⟩], [], none, 10⟩ (by decide)⟩

end Datatool
